import Mathlib

/-!
Verification development for the incremental git page generator `yagit`.

The definitions below are a shallow embedding of the source files
`src/escape.rs` and `src/main.rs`.  Strings are modelled at the byte level
as `List Nat` (one `Nat` per byte), machine integers as `Nat`/`Int` with
explicit wrapping where the source casts, `HashMap<Oid, SystemTime>` as a
function `Nat → Option Nat`, and fallible operations via `Option`.
-/

set_option maxHeartbeats 1000000
set_option maxRecDepth 100000

/-! ## HTML escaper: `src/escape.rs` -/

/-- Embeds `create_html_escape_table` (escape.rs:64-72): the five reserved
ASCII bytes are mapped to the byte sequences of their named entities
(`&lt;` `&gt;` `&amp;` `&quot;` `&apos;`); every other byte is unmapped. -/
def ESCAPE_TABLE (b : Nat) : Option (List Nat) :=
  if b = 60 then some [38, 108, 116, 59]
  else if b = 62 then some [38, 103, 116, 59]
  else if b = 38 then some [38, 97, 109, 112, 59]
  else if b = 34 then some [38, 113, 117, 111, 116, 59]
  else if b = 39 then some [38, 97, 112, 111, 115, 59]
  else none

/-- Embeds the `find_map` scan of `fmt_escaped_html_scalar` (escape.rs:44-47):
offset of the first byte with an escape-table entry, together with that
entry. -/
def findEscaped : List Nat → Option (Nat × List Nat)
  | [] => none
  | b :: rest =>
    match ESCAPE_TABLE b with
    | some seq => some (0, seq)
    | none => (findEscaped rest).map (fun p => (p.1 + 1, p.2))

theorem findEscaped_nil : findEscaped [] = none := rfl

theorem findEscaped_isSome_of_ne_nil {s : List Nat} {off : Nat} {seq : List Nat}
    (h : findEscaped s = some (off, seq)) : s ≠ [] := by
  intro hs; rw [hs, findEscaped_nil] at h; exact Option.noConfusion h

/-- Embeds the scalar escape loop `fmt_escaped_html_scalar` (escape.rs:35-62):
copy the run before the next reserved byte verbatim, emit the entity, and
continue after it; when no reserved byte remains, copy the tail. -/
def fmt_escaped_html_scalar (s : List Nat) : List Nat :=
  match h : findEscaped s with
  | none => s
  | some (off, seq) =>
    s.take off ++ seq ++ fmt_escaped_html_scalar (s.drop (off + 1))
termination_by s.length
decreasing_by
  have hne : s ≠ [] := findEscaped_isSome_of_ne_nil h
  have hpos : 0 < s.length := List.length_pos.mpr hne
  simp only [List.length_drop]
  omega

/-- The per-byte escape: the table entry when the byte is reserved, the
byte itself otherwise.  Specification helper used to characterise both
escape paths. -/
def escByte (b : Nat) : List Nat := (ESCAPE_TABLE b).getD [b]

/-- Byte-by-byte escaping: concatenation of `escByte` over the input.
Specification helper (the common functional characterisation that the
scalar and vectorized paths are proven equal to). -/
def escBytes : List Nat → List Nat
  | [] => []
  | b :: rest => escByte b ++ escBytes rest

theorem escBytes_append (a b : List Nat) :
    escBytes (a ++ b) = escBytes a ++ escBytes b := by
  induction a with
  | nil => rfl
  | cons x xs ih => simp [escBytes, ih]

theorem escBytes_of_none {s : List Nat} (h : ∀ b ∈ s, ESCAPE_TABLE b = none) :
    escBytes s = s := by
  induction s with
  | nil => rfl
  | cons x xs ih =>
    have hx : ESCAPE_TABLE x = none := h x (by simp)
    simp [escBytes, escByte, hx, ih fun b hb => h b (by simp [hb])]

theorem findEscaped_none {s : List Nat} (h : findEscaped s = none) :
    ∀ b ∈ s, ESCAPE_TABLE b = none := by
  induction s with
  | nil => simp
  | cons x xs ih =>
    intro b hb
    simp only [findEscaped] at h
    cases htab : ESCAPE_TABLE x with
    | some seq => rw [htab] at h; exact Option.noConfusion h
    | none =>
      rw [htab] at h
      rcases List.mem_cons.mp hb with rfl | hbx
      · exact htab
      · exact ih (Option.map_eq_none.mp h) b hbx

theorem findEscaped_some {s : List Nat} {off : Nat} {seq : List Nat}
    (h : findEscaped s = some (off, seq)) :
    off < s.length ∧ ESCAPE_TABLE (s.getD off 0) = some seq ∧
      ∀ b ∈ s.take off, ESCAPE_TABLE b = none := by
  induction s generalizing off with
  | nil => rw [findEscaped_nil] at h; exact Option.noConfusion h
  | cons x xs ih =>
    simp only [findEscaped] at h
    cases htab : ESCAPE_TABLE x with
    | some sq =>
      rw [htab] at h
      obtain ⟨rfl, rfl⟩ : 0 = off ∧ sq = seq := by
        have := Option.some.inj h; exact ⟨congrArg Prod.fst this, congrArg Prod.snd this⟩
      exact ⟨by simp, by simpa using htab, by simp⟩
    | none =>
      rw [htab] at h
      cases hrec : findEscaped xs with
      | none => rw [hrec] at h; exact Option.noConfusion h
      | some p =>
        rw [hrec] at h
        obtain ⟨o, sq⟩ := p
        have hpair := Option.some.inj h
        have ho : o + 1 = off := congrArg Prod.fst hpair
        have hsq : sq = seq := congrArg Prod.snd hpair
        subst hsq
        obtain ⟨h1, h2, h3⟩ := ih hrec
        refine ⟨?_, ?_, ?_⟩
        · simp only [List.length_cons]; omega
        · rw [← ho]; simpa using h2
        · rw [← ho]
          intro b hb
          rcases List.mem_cons.mp (by simpa [List.take] using hb) with rfl | hbx
          · exact htab
          · exact h3 b hbx

theorem fmt_escaped_html_scalar_of_none {s : List Nat} (h : findEscaped s = none) :
    fmt_escaped_html_scalar s = s := by
  rw [fmt_escaped_html_scalar]
  split
  · rfl
  · next h' => rw [h] at h'; exact Option.noConfusion h'

theorem fmt_escaped_html_scalar_of_some {s : List Nat} {off : Nat} {seq : List Nat}
    (h : findEscaped s = some (off, seq)) :
    fmt_escaped_html_scalar s =
      s.take off ++ seq ++ fmt_escaped_html_scalar (s.drop (off + 1)) := by
  rw [fmt_escaped_html_scalar]
  split
  · next h' => rw [h] at h'; exact Option.noConfusion h'
  · next off' seq' h' =>
    rw [h] at h'
    have hpair := Option.some.inj h'
    have ho : off = off' := congrArg Prod.fst hpair
    have hs : seq = seq' := congrArg Prod.snd hpair
    rw [← ho, ← hs]

/-- The scalar escape path equals byte-by-byte escaping. -/
theorem scalar_eq_escBytes (s : List Nat) :
    fmt_escaped_html_scalar s = escBytes s := by
  generalize hn : s.length = n
  induction n using Nat.strong_induction_on generalizing s with
  | _ n IH =>
    cases h : findEscaped s with
    | none =>
      rw [fmt_escaped_html_scalar_of_none h, escBytes_of_none (findEscaped_none h)]
    | some p =>
      obtain ⟨off, seq⟩ := p
      obtain ⟨hlt, htab, hpre⟩ := findEscaped_some h
      rw [fmt_escaped_html_scalar_of_some h]
      have hdec : s = s.take off ++ s.getD off 0 :: s.drop (off + 1) := by
        conv_lhs => rw [← List.take_append_drop off s]
        rw [List.drop_eq_getElem_cons hlt, List.getD_eq_getElem s 0 hlt]
      have htail : fmt_escaped_html_scalar (s.drop (off + 1)) =
          escBytes (s.drop (off + 1)) := by
        refine IH (s.drop (off + 1)).length ?_ _ rfl
        simp only [List.length_drop]; omega
      conv_rhs => rw [hdec]
      rw [escBytes_append, htail]
      have h1 : escBytes (s.take off) = s.take off := escBytes_of_none hpre
      simp only [escBytes, escByte, htab, h1, Option.getD_some, List.append_assoc]

/-! ## Vectorized escaper: `src/escape.rs`, module `simd` -/

/-- `VECTOR_SIZE` (escape.rs:89): size of one SSE window in bytes. -/
def VECTOR_SIZE : Nat := 16

/-- Embeds `create_lookup` (escape.rs:192-201): the 16-entry nibble lookup
vector; index `b % 16` holds the reserved byte with that low nibble, index
0 holds `0b0111_1111`. -/
def create_lookup : List Nat :=
  [127, 0, 34, 0, 0, 0, 38, 39, 0, 0, 0, 0, 60, 0, 62, 0]

/-- Per-byte semantics of the `_mm_shuffle_epi8` in `compute_mask`
(escape.rs:176): a byte with its most significant bit set maps to 0, any
other byte maps to the lookup entry for its low nibble. -/
def shuffle_lookup (b : Nat) : Nat :=
  if 128 ≤ b then 0 else create_lookup.getD (b % 16) 0

/-- Per-byte semantics of the `_mm_cmpeq_epi8` in `compute_mask`
(escape.rs:184): a byte matches exactly when the shuffled lookup value
equals the byte itself. -/
def matches_special (b : Nat) : Bool := shuffle_lookup b == b

/-- Little-endian bit packing, the semantics of `_mm_movemask_epi8`
(escape.rs:188): bit `i` of the result is the `i`-th entry of the list. -/
def maskOfBits : List Bool → Nat
  | [] => 0
  | b :: rest => (if b then 1 else 0) + 2 * maskOfBits rest

/-- Embeds `compute_mask` (escape.rs:158-189): a 16-bit mask whose bit `i`
states whether byte `offset + i` is an HTML-special byte. -/
def compute_mask (bytes : List Nat) (offset : Nat) : Nat :=
  maskOfBits ((List.range VECTOR_SIZE).map
    (fun i => matches_special (bytes.getD (offset + i) 0)))

/-- Embeds the set-bit iteration `while mask != 0 { ix = trailing_zeros;
...; mask ^= mask & -mask }` (escape.rs:131-135, 143-147): the ascending
list of set-bit indices of a mask. -/
def bitIndices (m : Nat) : List Nat :=
  if h : m = 0 then []
  else (if m % 2 = 1 then [0] else []) ++ (bitIndices (m / 2)).map (· + 1)
termination_by m
decreasing_by exact Nat.div_lt_self (Nat.pos_of_ne_zero h) (by omega)

/-- Index list of `true` entries of a bit list; specification helper for
`bitIndices ∘ maskOfBits`. -/
def trueIdx : List Bool → List Nat
  | [] => []
  | b :: rest => (if b then [0] else []) ++ (trueIdx rest).map (· + 1)

/-- Embeds the window loop of `foreach_special_simd` (escape.rs:128-137):
processes windows of `VECTOR_SIZE` bytes while `offset < ub`, collecting
the callback indices, and returns them with the final offset. -/
def simd_loop (bytes : List Nat) (offset ub : Nat) : List Nat × Nat :=
  if offset < ub then
    let w := (bitIndices (compute_mask bytes offset)).map (offset + ·)
    let rest := simd_loop bytes (offset + VECTOR_SIZE) ub
    (w ++ rest.1, rest.2)
  else ([], offset)
termination_by ub - offset
decreasing_by simp only [VECTOR_SIZE]; omega

/-- Embeds `foreach_special_simd` called at offset 0 (escape.rs:111-149):
the window loop followed by the final aligned window, whose mask is
shifted right by the bytes already scanned. -/
def foreach_special_simd (bytes : List Nat) : List Nat :=
  let ub := bytes.length - VECTOR_SIZE
  let p := simd_loop bytes 0 ub
  p.1 ++ (bitIndices (compute_mask bytes ub >>> (p.2 - ub))).map (p.2 + ·)

/-- Embeds the callback body and trailing write of `simd::fmt_escaped_html`
(escape.rs:91-109): for each special index, write the unescaped run since
`mark`, then the table entry (or the byte itself when the table has no
entry), then continue with `mark = i + 1`; finally write the tail. -/
def simd_write_escaped (s : List Nat) : List Nat → Nat → List Nat
  | [], mark => s.drop mark
  | i :: rest, mark =>
    match ESCAPE_TABLE (s.getD i 0) with
    | some repl => (s.take i).drop mark ++ repl ++ simd_write_escaped s rest (i + 1)
    | none => (s.take i).drop mark ++ (s.take (i + 1)).drop i ++
        simd_write_escaped s rest (i + 1)

/-- The vectorized escape path (escape.rs:91-109). -/
def simd_fmt_escaped_html (s : List Nat) : List Nat :=
  simd_write_escaped s (foreach_special_simd s) 0

/-- Embeds `Display for Escaped` (escape.rs:14-31): dispatch to the
vectorized path when SSSE3 is available and the input is at least one
window long, and to the scalar path otherwise. -/
def Escaped_fmt (ssse3 : Bool) (s : List Nat) : List Nat :=
  if ssse3 && decide (VECTOR_SIZE ≤ s.length) then simd_fmt_escaped_html s
  else fmt_escaped_html_scalar s

/-- Whether the byte at index `i` is one of the five reserved bytes;
specification helper. -/
def special_at (s : List Nat) (i : Nat) : Bool :=
  (ESCAPE_TABLE (s.getD i 0)).isSome

theorem matches_special_eq (b : Nat) :
    matches_special b = (ESCAPE_TABLE b).isSome := by
  by_cases hb : b < 256
  · exact (by decide : ∀ b' < 256, matches_special b' = (ESCAPE_TABLE b').isSome) b hb
  · have h128 : 128 ≤ b := by omega
    have htab : ESCAPE_TABLE b = none := by
      unfold ESCAPE_TABLE
      repeat rw [if_neg (by omega)]
    simp only [matches_special, shuffle_lookup, if_pos h128, htab, Option.isSome_none,
      beq_eq_false_iff_ne]
    omega

theorem bitIndices_zero : bitIndices 0 = [] := by
  unfold bitIndices; simp

theorem bitIndices_of_ne {m : Nat} (h : m ≠ 0) :
    bitIndices m =
      (if m % 2 = 1 then [0] else []) ++ (bitIndices (m / 2)).map (· + 1) := by
  conv_lhs => unfold bitIndices
  rw [dif_neg h]

theorem bitIndices_maskOfBits (bs : List Bool) :
    bitIndices (maskOfBits bs) = trueIdx bs := by
  induction bs with
  | nil => simpa [maskOfBits] using bitIndices_zero
  | cons b rest ih =>
    cases b with
    | true =>
      have hval : maskOfBits (true :: rest) = 1 + 2 * maskOfBits rest := by
        simp [maskOfBits]
      have hne : maskOfBits (true :: rest) ≠ 0 := by rw [hval]; omega
      have h2 : maskOfBits (true :: rest) % 2 = 1 := by rw [hval]; omega
      have h3 : maskOfBits (true :: rest) / 2 = maskOfBits rest := by rw [hval]; omega
      rw [bitIndices_of_ne hne, if_pos h2, h3, ih]
      simp [trueIdx]
    | false =>
      have hval : maskOfBits (false :: rest) = 2 * maskOfBits rest := by
        simp [maskOfBits]
      by_cases hm : maskOfBits rest = 0
      · have h0 : maskOfBits (false :: rest) = 0 := by rw [hval, hm]
        rw [h0, bitIndices_zero]
        have ht : trueIdx rest = [] := by rw [← ih, hm, bitIndices_zero]
        simp [trueIdx, ht]
      · have hne : maskOfBits (false :: rest) ≠ 0 := by rw [hval]; omega
        have h2 : ¬ maskOfBits (false :: rest) % 2 = 1 := by rw [hval]; omega
        have h3 : maskOfBits (false :: rest) / 2 = maskOfBits rest := by rw [hval]; omega
        rw [bitIndices_of_ne hne, if_neg h2, h3, ih]
        simp [trueIdx]

theorem trueIdx_map_range (n : Nat) :
    ∀ p : Nat → Bool, trueIdx ((List.range n).map p) = (List.range n).filter p := by
  induction n with
  | zero => intro p; simp [trueIdx]
  | succ n ih =>
    intro p
    rw [List.range_succ_eq_map]
    simp only [List.map_cons, List.map_map]
    have hhd : trueIdx (p 0 :: ((List.range n).map (p ∘ Nat.succ))) =
        (if p 0 then [0] else []) ++
          (trueIdx ((List.range n).map (p ∘ Nat.succ))).map (· + 1) := rfl
    rw [hhd, ih (p ∘ Nat.succ), List.filter_cons,
      List.filter_map Nat.succ (List.range n)]
    have hsucc : List.map Nat.succ ((List.range n).filter (p ∘ Nat.succ)) =
        List.map (· + 1) ((List.range n).filter (p ∘ Nat.succ)) := by
      simp [Nat.succ_eq_add_one]
    cases hp : p 0 <;> simp [hsucc]

theorem maskOfBits_div2 (bs : List Bool) :
    maskOfBits bs / 2 = maskOfBits bs.tail := by
  cases bs with
  | nil => simp [maskOfBits]
  | cons b r =>
    have : maskOfBits (b :: r) = (if b then 1 else 0) + 2 * maskOfBits r := by
      simp [maskOfBits]
    rw [this]
    cases b <;> simp <;> omega

theorem maskOfBits_shiftRight (bs : List Bool) (k : Nat) :
    maskOfBits bs >>> k = maskOfBits (bs.drop k) := by
  induction k with
  | zero => simp
  | succ k ih =>
    rw [Nat.shiftRight_succ, ih, maskOfBits_div2, List.tail_drop]

theorem range'_drop (a n k : Nat) :
    (List.range' a n).drop k = List.range' (a + k) (n - k) := by
  induction k generalizing a n with
  | zero => simp
  | succ k ih =>
    cases n with
    | zero => simp [List.range']
    | succ m =>
      rw [List.range'_succ, List.drop_succ_cons, ih]
      congr 1 <;> omega

theorem window_indices (s : List Nat) (off : Nat) :
    (bitIndices (compute_mask s off)).map (off + ·) =
      (List.range' off VECTOR_SIZE).filter (special_at s) := by
  rw [compute_mask, bitIndices_maskOfBits, trueIdx_map_range]
  have hcong : (List.range VECTOR_SIZE).filter
        (fun i => matches_special (s.getD (off + i) 0)) =
      (List.range VECTOR_SIZE).filter (fun i => special_at s (off + i)) := by
    refine List.filter_congr fun i _ => ?_
    rw [matches_special_eq]; rfl
  rw [hcong]
  have hmf := List.filter_map (p := special_at s) (fun i => off + i)
    (List.range VECTOR_SIZE)
  have hrange : List.range' off VECTOR_SIZE =
      (List.range VECTOR_SIZE).map (fun i => off + i) := by
    simpa using List.range'_eq_map_range off VECTOR_SIZE
  rw [hrange, hmf]
  rfl

theorem simd_loop_of_lt {bytes : List Nat} {off ub : Nat} (h : off < ub) :
    simd_loop bytes off ub =
      ((bitIndices (compute_mask bytes off)).map (off + ·) ++
        (simd_loop bytes (off + VECTOR_SIZE) ub).1,
       (simd_loop bytes (off + VECTOR_SIZE) ub).2) := by
  conv_lhs => rw [simd_loop]
  simp [h]

theorem simd_loop_of_ge {bytes : List Nat} {off ub : Nat} (h : ¬ off < ub) :
    simd_loop bytes off ub = ([], off) := by
  conv_lhs => rw [simd_loop]
  simp [h]

theorem simd_loop_spec (s : List Nat) (ub : Nat) :
    ∀ n off, ub - off ≤ n →
      (simd_loop s off ub).1 =
        (List.range' off ((simd_loop s off ub).2 - off)).filter (special_at s) ∧
      off ≤ (simd_loop s off ub).2 ∧ ub ≤ (simd_loop s off ub).2 ∧
      (off < ub + VECTOR_SIZE → (simd_loop s off ub).2 < ub + VECTOR_SIZE) := by
  intro n
  induction n using Nat.strong_induction_on with
  | _ n IH =>
    intro off hn
    by_cases h : off < ub
    · have hm : ub - (off + VECTOR_SIZE) < n := by
        simp only [VECTOR_SIZE]; omega
      obtain ⟨h1, h2, h3, h4⟩ := IH _ hm (off + VECTOR_SIZE) le_rfl
      rw [simd_loop_of_lt h]
      refine ⟨?_, ?_, ?_, ?_⟩
      · simp only
        rw [h1, window_indices, ← List.filter_append]
        congr 1
        have happ := List.range'_append off VECTOR_SIZE
          ((simd_loop s (off + VECTOR_SIZE) ub).2 - (off + VECTOR_SIZE)) 1
        simp only [one_mul] at happ
        rw [happ]
        congr 1
        omega
      · simp only; omega
      · simp only; omega
      · simp only
        intro _
        exact h4 (by simp only [VECTOR_SIZE] at *; omega)
    · rw [simd_loop_of_ge h]
      refine ⟨by simp, le_rfl, by omega, fun h' => h'⟩

theorem final_window_indices (s : List Nat) (ub fin : Nat)
    (hub : ub + VECTOR_SIZE = s.length) (hlo : ub ≤ fin)
    (hhi : fin < ub + VECTOR_SIZE) :
    (bitIndices (compute_mask s ub >>> (fin - ub))).map (fin + ·) =
      (List.range' fin (s.length - fin)).filter (special_at s) := by
  rw [compute_mask, maskOfBits_shiftRight, bitIndices_maskOfBits,
    ← List.map_drop, List.range_eq_range', range'_drop]
  simp only [Nat.zero_add]
  rw [List.range'_eq_map_range, List.map_map, trueIdx_map_range]
  have hcong : (List.range (VECTOR_SIZE - (fin - ub))).filter
        ((fun i => matches_special (s.getD (ub + i) 0)) ∘ (fun i => fin - ub + i)) =
      (List.range (VECTOR_SIZE - (fin - ub))).filter (fun i => special_at s (fin + i)) := by
    refine List.filter_congr fun i _ => ?_
    simp only [Function.comp]
    rw [matches_special_eq]
    have : ub + (fin - ub + i) = fin + i := by omega
    rw [this]; rfl
  rw [hcong]
  have hmf := List.filter_map (p := special_at s) (fun i => fin + i)
    (List.range (VECTOR_SIZE - (fin - ub)))
  have hrange : List.range' fin (s.length - fin) =
      (List.range (VECTOR_SIZE - (fin - ub))).map (fun i => fin + i) := by
    have hj : s.length - fin = VECTOR_SIZE - (fin - ub) := by omega
    rw [hj]
    simpa using List.range'_eq_map_range fin (VECTOR_SIZE - (fin - ub))
  rw [hrange, hmf]
  rfl

theorem foreach_special_simd_eq (s : List Nat) (h16 : VECTOR_SIZE ≤ s.length) :
    foreach_special_simd s = (List.range' 0 s.length).filter (special_at s) := by
  obtain ⟨h1, h2, h3, h4⟩ :=
    simd_loop_spec s (s.length - VECTOR_SIZE) (s.length - VECTOR_SIZE) 0 le_rfl
  have hub : (s.length - VECTOR_SIZE) + VECTOR_SIZE = s.length := by omega
  have hhi : (simd_loop s 0 (s.length - VECTOR_SIZE)).2 <
      (s.length - VECTOR_SIZE) + VECTOR_SIZE := h4 (by simp [VECTOR_SIZE])
  unfold foreach_special_simd
  simp only
  rw [h1, final_window_indices s _ _ hub h3 hhi, ← List.filter_append]
  congr 1
  have happ := List.range'_append 0 ((simd_loop s 0 (s.length - VECTOR_SIZE)).2 - 0)
    (s.length - (simd_loop s 0 (s.length - VECTOR_SIZE)).2) 1
  simp only [one_mul, Nat.zero_add, Nat.sub_zero] at happ ⊢
  rw [happ]
  congr 1
  omega

theorem simd_write_shift (s : List Nat) (idxs : List Nat) (mark : Nat)
    (hidx : ∀ i ∈ idxs, mark < i) (hm : mark < s.length) :
    simd_write_escaped s idxs mark =
      s.getD mark 0 :: simd_write_escaped s idxs (mark + 1) := by
  cases idxs with
  | nil =>
    simp only [simd_write_escaped]
    rw [List.drop_eq_getElem_cons hm, List.getD_eq_getElem s 0 hm]
  | cons i rest =>
    have hmi : mark < i := hidx i (by simp)
    have htake : (s.take i).drop mark = s.getD mark 0 :: (s.take i).drop (mark + 1) := by
      have hlt : mark < (s.take i).length := by
        simp only [List.length_take]; omega
      rw [List.drop_eq_getElem_cons hlt]
      congr 1
      rw [List.getElem_take, List.getD_eq_getElem s 0 hm]
    simp only [simd_write_escaped]
    cases htab : ESCAPE_TABLE (s.getD i 0) <;> rw [htake] <;> simp

theorem simd_write_spec (s : List Nat) :
    ∀ n mark, s.length - mark = n →
      simd_write_escaped s
          ((List.range' mark (s.length - mark)).filter (special_at s)) mark =
        escBytes (s.drop mark) := by
  intro n
  induction n using Nat.strong_induction_on with
  | _ n IH =>
    intro mark hmark
    by_cases hm : s.length ≤ mark
    · have h0 : s.length - mark = 0 := by omega
      rw [h0]
      simp [List.range', simd_write_escaped, List.drop_eq_nil_of_le hm, escBytes]
    · push_neg at hm
      have hsucc : s.length - mark = (s.length - (mark + 1)) + 1 := by omega
      rw [hsucc, List.range'_succ, List.filter_cons]
      have hrec : simd_write_escaped s
            ((List.range' (mark + 1) (s.length - (mark + 1))).filter (special_at s))
            (mark + 1) =
          escBytes (s.drop (mark + 1)) :=
        IH (s.length - (mark + 1)) (by omega) (mark + 1) rfl
      have hdropm : s.drop mark = s.getD mark 0 :: s.drop (mark + 1) := by
        rw [List.drop_eq_getElem_cons hm, List.getD_eq_getElem s 0 hm]
      by_cases hsp : special_at s mark
      · rw [if_pos hsp]
        obtain ⟨repl, hrepl⟩ : ∃ r, ESCAPE_TABLE (s.getD mark 0) = some r := by
          have := hsp
          unfold special_at at this
          exact Option.isSome_iff_exists.mp this
        have hpre : (s.take mark).drop mark = [] :=
          List.drop_eq_nil_of_le (by simp [List.length_take])
        simp only [simd_write_escaped, hrepl, hpre, List.nil_append]
        rw [hrec, hdropm]
        simp only [escBytes, escByte, hrepl, Option.getD_some]
      · rw [if_neg hsp]
        have hmem : ∀ i ∈ (List.range' (mark + 1) (s.length - (mark + 1))).filter
            (special_at s), mark < i := by
          intro i hi
          have := List.mem_range'.mp (List.mem_of_mem_filter hi)
          omega
        rw [simd_write_shift s _ mark hmem hm, hrec, hdropm]
        have htabn : ESCAPE_TABLE (s.getD mark 0) = none := by
          unfold special_at at hsp
          exact Option.not_isSome_iff_eq_none.mp (by simpa using hsp)
        simp only [escBytes, escByte, htabn, Option.getD_none, List.cons_append,
          List.nil_append]

/-- The vectorized escape path equals byte-by-byte escaping on any input of
at least one window. -/
theorem simd_eq_escBytes (s : List Nat) (h16 : VECTOR_SIZE ≤ s.length) :
    simd_fmt_escaped_html s = escBytes s := by
  unfold simd_fmt_escaped_html
  rw [foreach_special_simd_eq s h16]
  have h := simd_write_spec s s.length 0 (by omega)
  simpa using h

/-- C4: `escape` is a pure, byte-preserving transformation.  Each occurrence
of the five reserved ASCII bytes is replaced by its named entity and every
other byte passes through unmodified (formally: the scalar escape path
equals the pointwise map `escBytes` which keeps every unreserved byte and
substitutes the table entry for a reserved one); in particular, on a byte
string containing none of the five reserved bytes the escape is the
identity. -/
theorem c4_escape_byte_preserving (s t : List Nat)
    (ht : ∀ b ∈ t, ESCAPE_TABLE b = none) :
    fmt_escaped_html_scalar s = escBytes s ∧ fmt_escaped_html_scalar t = t := by
  refine ⟨scalar_eq_escBytes s, ?_⟩
  rw [scalar_eq_escBytes t, escBytes_of_none ht]

/-- Witness for C4 at concrete inputs: `[60, 104]` is the byte string
`"<h"`, and `[104, 105]` is `"hi"`, which contains no reserved byte. -/
theorem c4_escape_byte_preserving_witness :
    (∀ b ∈ [104, 105], ESCAPE_TABLE b = none) ∧
    fmt_escaped_html_scalar [60, 104] = escBytes [60, 104] ∧
    escBytes [60, 104] = [38, 108, 116, 59, 104] ∧
    fmt_escaped_html_scalar [104, 105] = [104, 105] := by
  have h := c4_escape_byte_preserving [60, 104] [104, 105] (by decide)
  exact ⟨by decide, h.1, by decide, h.2⟩

/-- C5: for every input, the vectorized (SIMD, 16-byte window) escape path
and the scalar byte-at-a-time escape path produce byte-identical output;
the dispatch in `Display for Escaped` (vectorized only when SSSE3 is
available and the input is at least one window long) is never an
observable behavior change. -/
theorem c5_simd_scalar_equal (ssse3 : Bool) (s : List Nat) :
    Escaped_fmt ssse3 s = fmt_escaped_html_scalar s := by
  unfold Escaped_fmt
  split
  · next h =>
    have h16 : VECTOR_SIZE ≤ s.length := by
      have := (Bool.and_eq_true _ _).mp h
      exact of_decide_eq_true this.2
    rw [simd_eq_escBytes s h16, scalar_eq_escBytes]
  · rfl

/-! ## FreshnessCache: `src/main.rs`, `render_commit` (lines 836-848)

The `HashMap<Oid, SystemTime>` is modelled as a function from object ids
(as `Nat`) to optional timestamps (seconds since the epoch, as `Nat`). -/

/-- The freshness cache: content identity to most recent commit timestamp. -/
abbrev Cache : Type := Nat → Option Nat

/-- Embeds the max-update of `render_commit` (main.rs:840-848): if the key
is present and older, overwrite it; if it is present and at least as new,
keep it; if absent, insert. -/
def cacheUpdate (c : Cache) (oid t : Nat) : Cache :=
  fun k =>
    if k = oid then
      match c oid with
      | some prev => if prev < t then some t else some prev
      | none => some t
    else c k

/-- Folding `cacheUpdate` over a list of commit timestamps touching one
content identity, in visitation order. -/
def applyTimes (c : Cache) (oid : Nat) (ts : List Nat) : Cache :=
  ts.foldl (fun acc t => cacheUpdate acc oid t) c

/-- One max-step on an optional stored value; specification helper. -/
def maxStep (o : Option Nat) (t : Nat) : Option Nat :=
  match o with
  | some prev => if prev < t then some t else some prev
  | none => some t

theorem cacheUpdate_self (c : Cache) (oid t : Nat) :
    cacheUpdate c oid t oid = maxStep (c oid) t := by
  simp [cacheUpdate, maxStep]

theorem cacheUpdate_other (c : Cache) (oid t k : Nat) (h : k ≠ oid) :
    cacheUpdate c oid t k = c k := by
  simp [cacheUpdate, h]

theorem maxStep_some (s t : Nat) : maxStep (some s) t = some (max s t) := by
  simp only [maxStep]
  rcases Nat.lt_or_ge s t with h | h
  · rw [if_pos h, Nat.max_eq_right (Nat.le_of_lt h)]
  · rw [if_neg (by omega), Nat.max_eq_left h]

theorem maxStep_comm (o : Option Nat) (a b : Nat) :
    maxStep (maxStep o a) b = maxStep (maxStep o b) a := by
  cases o with
  | none =>
    show maxStep (some a) b = maxStep (some b) a
    rw [maxStep_some, maxStep_some, Nat.max_comm]
  | some s =>
    rw [maxStep_some, maxStep_some, maxStep_some, maxStep_some,
      Nat.max_assoc, Nat.max_assoc, Nat.max_comm a b]

theorem applyTimes_lookup (c : Cache) (oid : Nat) (ts : List Nat) :
    applyTimes c oid ts oid = ts.foldl maxStep (c oid) := by
  induction ts generalizing c with
  | nil => rfl
  | cons t rest ih =>
    simp only [applyTimes, List.foldl_cons] at *
    rw [ih (cacheUpdate c oid t), cacheUpdate_self]

theorem foldl_maxStep_some (s : Nat) (ts : List Nat) :
    ts.foldl maxStep (some s) = some (ts.foldl Nat.max s) := by
  induction ts generalizing s with
  | nil => rfl
  | cons t rest ih => simp only [List.foldl_cons, maxStep_some, ih]

theorem foldl_maxStep_perm {ts ts' : List Nat} (h : ts.Perm ts') :
    ∀ o : Option Nat, ts.foldl maxStep o = ts'.foldl maxStep o := by
  induction h with
  | nil => intro o; rfl
  | cons x _ ih => intro o; simp only [List.foldl_cons]; exact ih _
  | swap x y l => intro o; simp only [List.foldl_cons, maxStep_comm]
  | trans _ _ ih1 ih2 => intro o; exact (ih1 o).trans (ih2 o)

/-- C2: the FreshnessCache max-update.  Feeding two timestamps `t1 < t2`
for the same content identity in either visitation order stores `t2`; in
general the stored value is the maximum commit timestamp seen for that
identity, independent of the order in which the commits are walked. -/
theorem c2_freshness_max_update (c : Cache) (oid t1 t2 t : Nat)
    (ts ts' : List Nat) (h12 : t1 < t2) (hperm : ts.Perm ts')
    (hc : c oid = none) :
    cacheUpdate (cacheUpdate c oid t1) oid t2 oid = some t2 ∧
    cacheUpdate (cacheUpdate c oid t2) oid t1 oid = some t2 ∧
    applyTimes c oid (t :: ts) oid = some (ts.foldl Nat.max t) ∧
    applyTimes c oid ts oid = applyTimes c oid ts' oid := by
  refine ⟨?_, ?_, ?_, ?_⟩
  · rw [cacheUpdate_self, cacheUpdate_self, hc]
    show maxStep (maxStep none t1) t2 = some t2
    simp only [maxStep]
    rw [if_pos h12]
  · rw [cacheUpdate_self, cacheUpdate_self, hc]
    show maxStep (maxStep none t2) t1 = some t2
    simp only [maxStep]
    rw [if_neg (by omega)]
  · rw [applyTimes_lookup, hc]
    simp only [List.foldl_cons]
    show List.foldl maxStep (maxStep none t) ts = some (ts.foldl Nat.max t)
    simp only [maxStep]
    exact foldl_maxStep_some t ts
  · rw [applyTimes_lookup, applyTimes_lookup]
    exact foldl_maxStep_perm hperm (c oid)

/-- Witness for C2 at a concrete input: identity 7, timestamps 1 < 2 fed in
both orders, and the permuted walk orders `[3, 1]` and `[1, 3]`, starting
from an empty cache. -/
theorem c2_freshness_max_update_witness :
    (1 : Nat) < 2 ∧ List.Perm [3, 1] [1, 3] ∧
    ((fun _ => none : Cache) 7 = none) ∧
    cacheUpdate (cacheUpdate (fun _ => none) 7 1) 7 2 7 = some 2 ∧
    cacheUpdate (cacheUpdate (fun _ => none) 7 2) 7 1 7 = some 2 ∧
    applyTimes (fun _ => none) 7 (5 :: [3, 1]) 7 = some ([3, 1].foldl Nat.max 5) ∧
    applyTimes (fun _ => none) 7 [3, 1] 7 = applyTimes (fun _ => none) 7 [1, 3] 7 := by
  have h := c2_freshness_max_update (fun _ => none) 7 1 2 5 [3, 1] [1, 3]
    (by decide) (by decide) rfl
  exact ⟨by decide, by decide, rfl, h.1, h.2.1, h.2.2.1, h.2.2.2⟩

/-! ## Commit rendering: `src/main.rs`, `render_commit` (lines 783-1139) -/

/-- The `git2::Delta` statuses of a diff delta. -/
inductive DeltaStatus
  | Unmodified | Added | Deleted | Modified | Renamed | Copied
  | Ignored | Untracked | Typechange | Unreadable | Conflicted
deriving DecidableEq

/-- Embeds the status filter of `render_commit` (main.rs:825-829): only
Added, Copied, Deleted, Modified and Renamed deltas are processed. -/
def keep_delta : DeltaStatus → Bool
  | .Added | .Copied | .Deleted | .Modified | .Renamed => true
  | _ => false

/-- One delta of a commit diff, as consumed by `render_commit`: its status,
the content identity of its new file, and its per-delta line counts. -/
structure DeltaRec where
  status : DeltaStatus
  new_id : Nat
  insertions : Nat
  deletions : Nat
deriving DecidableEq

/-- The diffstat of the complete diff (main.rs:901, 963-967): files
changed, total insertions, total deletions, accumulated over every delta
of the diff, whatever its status. -/
def diff_stats (ds : List DeltaRec) : Nat × Nat × Nat :=
  (ds.length, (ds.map DeltaRec.insertions).sum, (ds.map DeltaRec.deletions).sum)

/-- Embeds the delta loop of `render_commit` (main.rs:823-890): skip deltas
with filtered-out statuses; apply the freshness max-update for every kept
delta; when the page is skipped, stop there, otherwise also collect the
delta for rendering. -/
def commit_delta_loop (should_skip : Bool) (t : Nat) :
    List DeltaRec → Cache → Cache × List DeltaRec
  | [], c => (c, [])
  | d :: rest, c =>
    if keep_delta d.status = false then commit_delta_loop should_skip t rest c
    else
      let c' := cacheUpdate c d.new_id t
      if should_skip then commit_delta_loop should_skip t rest c'
      else
        let r := commit_delta_loop should_skip t rest c'
        (r.1, d :: r.2)

/-- Embeds `render_commit` (main.rs:783-896): `should_skip` is computed
from the build flag and the existence of the page file (main.rs:792); the
delta loop always runs; when skipping, no page is produced (main.rs:894),
otherwise the diffstat of the complete diff and the filtered delta table
are rendered. -/
def render_commit_model (full_build page_exists : Bool) (t : Nat)
    (ds : List DeltaRec) (c : Cache) :
    Cache × Option ((Nat × Nat × Nat) × List DeltaRec) :=
  let should_skip := !full_build && page_exists
  let r := commit_delta_loop should_skip t ds c
  if should_skip then (r.1, none)
  else (r.1, some (diff_stats ds, r.2))

/-- The freshness bookkeeping of one commit: fold of the max-update over
its kept deltas; specification helper. -/
def applyDeltas (t : Nat) (ds : List DeltaRec) (c : Cache) : Cache :=
  ds.foldl (fun acc d => if keep_delta d.status then cacheUpdate acc d.new_id t else acc) c

theorem commit_delta_loop_cache (sk : Bool) (t : Nat) (ds : List DeltaRec) :
    ∀ c : Cache, (commit_delta_loop sk t ds c).1 = applyDeltas t ds c := by
  induction ds with
  | nil => intro c; rfl
  | cons d rest ih =>
    intro c
    by_cases hk : keep_delta d.status
    · cases sk <;> simp [commit_delta_loop, applyDeltas, List.foldl_cons, hk, ih]
    · simp only [Bool.not_eq_true] at hk
      simp [commit_delta_loop, applyDeltas, List.foldl_cons, hk, ih]

theorem commit_delta_loop_rows (t : Nat) (ds : List DeltaRec) :
    ∀ c : Cache, (commit_delta_loop false t ds c).2 =
      ds.filter (fun d => keep_delta d.status) := by
  induction ds with
  | nil => intro c; rfl
  | cons d rest ih =>
    intro c
    by_cases hk : keep_delta d.status
    · simp [commit_delta_loop, List.filter_cons, hk, ih]
    · simp only [Bool.not_eq_true] at hk
      simp [commit_delta_loop, List.filter_cons, hk, ih]

/-- C3: for every commit whose page file already exists with
`forceRebuild` false, rendering produces no page output (so its bytes are
unchanged by a re-run), but the FreshnessCache max-update for the commit's
deltas is applied exactly as in a non-skipped run: the resulting cache is
the same for every combination of the build flag and page existence. -/
theorem c3_commit_skip_preserves_freshness (fb pe : Bool) (t : Nat)
    (ds : List DeltaRec) (c : Cache) :
    (render_commit_model fb pe t ds c).1 = applyDeltas t ds c ∧
    (render_commit_model false true t ds c).2 = none := by
  constructor
  · unfold render_commit_model
    cases h : (!fb && pe) <;> simp [commit_delta_loop_cache]
  · rfl

/-- C9: for every rendered commit page (destination absent, any build
flag), the diffstat totals are computed by `diff_stats` over the complete
unfiltered delta list, while the rendered delta table is exactly the
deltas whose status survives the `keep_delta` filter; `keep_delta` accepts
exactly Added, Copied, Deleted, Modified and Renamed. -/
theorem c9_diffstat_unfiltered (fb : Bool) (t : Nat) (ds : List DeltaRec)
    (c : Cache) :
    (render_commit_model fb false t ds c).2 =
      some (diff_stats ds, ds.filter (fun d => keep_delta d.status)) ∧
    diff_stats ds =
      (ds.length, (ds.map DeltaRec.insertions).sum, (ds.map DeltaRec.deletions).sum) ∧
    ∀ st : DeltaStatus, keep_delta st = true ↔
      st ∈ [DeltaStatus.Added, DeltaStatus.Copied, DeltaStatus.Deleted,
            DeltaStatus.Modified, DeltaStatus.Renamed] := by
  refine ⟨?_, rfl, ?_⟩
  · unfold render_commit_model
    simp only [Bool.and_false, Bool.not_eq_true']
    rw [commit_delta_loop_rows]
    simp
  · intro st
    cases st <;> simp [keep_delta]

/-! ## Blob page freshness skip: `src/main.rs`, `render_blob` (lines 579-591) -/

/-- Embeds the skip decision of `render_blob` (main.rs:584-591).  Inputs:
the `full_build` flag, the result of `fs::metadata(...).modified()` for the
destination page (`none` when the page does not exist), and the cache
lookup `last_commit_time[&blob.id]` (`none` when the cache has no entry
for the blob's content identity).  Output: `some true` when the page is
skipped, `some false` when it is rendered, and `none` when the `HashMap`
index panics because the page exists but the cache has no entry. -/
def render_blob_skip (full_build : Bool) (page_mtime cache_entry : Option Nat) :
    Option Bool :=
  if !full_build then
    match page_mtime with
    | some last_modified =>
      match cache_entry with
      | some t => some (decide (t < last_modified))
      | none => none
    | none => some false
  else some false

/-- The skip predicate as worded by claim C1: the page is skipped exactly
when `forceRebuild` is false, the destination page already exists, and its
last-modified time is not older than the cache's recorded timestamp;
rendered when the cache entry is newer, absent, or when forcing. -/
def spec_blob_skip (forceRebuild : Bool) (page_mtime cache_entry : Option Nat) :
    Bool :=
  match forceRebuild, page_mtime, cache_entry with
  | false, some last_modified, some t => decide (t ≤ last_modified)
  | _, _, _ => false

/-- The corrected skip predicate: skip only when the page exists, the
cache has an entry, and the page is strictly newer than the entry; a
missing cache entry for an existing page is a lookup panic, not a render. -/
def spec_blob_skip_strict (forceRebuild : Bool)
    (page_mtime cache_entry : Option Nat) : Option Bool :=
  match forceRebuild, page_mtime, cache_entry with
  | false, some last_modified, some t => some (decide (t < last_modified))
  | false, some _, none => none
  | _, _, _ => some false

/-- C1 fails on the code: when the destination page exists and its
last-modified time equals the cached timestamp, the claim ("not older
than") says the page is skipped, but `render_blob` uses a strict
comparison (`last_modified > last_commit_time[&blob.id]`, main.rs:587) and
renders it. -/
theorem c1_blob_skip_counterexample :
    spec_blob_skip false (some 5) (some 5) = true ∧
    render_blob_skip false (some 5) (some 5) = some false := by
  constructor <;> rfl

/-- C1 amended: the blob page is skipped exactly when `forceRebuild` is
false, the destination exists, the cache has an entry for the blob's
content identity, and the destination's last-modified time is strictly
newer than that entry; when the destination exists but the cache has no
entry, the lookup panics instead of rendering. -/
theorem c1_blob_skip_amended (f : Bool) (pm ce : Option Nat) :
    render_blob_skip f pm ce = spec_blob_skip_strict f pm ce := by
  cases f <;> cases pm <;> cases ce <;> rfl

/-! ## Hunk line classification: `src/main.rs`, `render_commit`
(lines 872-887 and 1075-1124) -/

/-- The `git2::DiffLineType` origins relevant to textual hunks. -/
inductive DiffLineType
  | Context | Addition | Deletion
deriving DecidableEq

/-- One line of a hunk as provided by libgit2: its origin, and its old and
new line numbers (`none` on the side the line is absent from). -/
structure DiffLine where
  origin : DiffLineType
  old_lineno : Option Nat
  new_lineno : Option Nat
deriving DecidableEq

/-- The libgit2 invariant tying a line's origin to its line numbers: an
addition exists only on the new side, a deletion only on the old side, a
context line on both. -/
def lineWF (l : DiffLine) : Bool :=
  match l.origin with
  | .Addition => l.old_lineno.isNone && l.new_lineno.isSome
  | .Deletion => l.old_lineno.isSome && l.new_lineno.isNone
  | .Context  => l.old_lineno.isSome && l.new_lineno.isSome

/-- Embeds the per-delta line counting of `render_commit`
(main.rs:877-886): a line with no old line number increments the addition
count, otherwise a line with no new line number increments the deletion
count, and any other line is uncounted.  Result: `(add_count, del_count)`. -/
def delta_counts (lines : List DiffLine) : Nat × Nat :=
  lines.foldl
    (fun acc line =>
      if line.old_lineno.isNone then (acc.1 + 1, acc.2)
      else if line.new_lineno.isNone then (acc.1, acc.2 + 1)
      else acc)
    (0, 0)

/-- How one rendered diff line is tagged in the HTML output. -/
inductive LineTag
  | added | deleted | unmarked
deriving DecidableEq, BEq

/-- Embeds the per-line rendering of the unified-diff block
(main.rs:1082-1123): for a Modified delta the tag follows the line origin;
for an Added (resp. Deleted) delta every line is tagged as an addition
(resp. deletion); for any other delta status nothing is written. -/
def render_line_tag (status : DeltaStatus) (line : DiffLine) : Option LineTag :=
  match status with
  | .Modified =>
    match line.origin with
    | .Addition => some .added
    | .Deletion => some .deleted
    | .Context  => some .unmarked
  | .Added => some .added
  | .Deleted => some .deleted
  | _ => none

/-- The list of tags rendered for one hunk. -/
def render_hunk_tags (status : DeltaStatus) (lines : List DiffLine) : List LineTag :=
  lines.filterMap (render_line_tag status)

/-- Lines present only on the new side. -/
def countNewOnly (lines : List DiffLine) : Nat :=
  lines.countP (fun l => l.old_lineno.isNone && l.new_lineno.isSome)

/-- Lines present only on the old side. -/
def countOldOnly (lines : List DiffLine) : Nat :=
  lines.countP (fun l => l.old_lineno.isSome && l.new_lineno.isNone)

/-- Lines present on both sides. -/
def countBoth (lines : List DiffLine) : Nat :=
  lines.countP (fun l => l.old_lineno.isSome && l.new_lineno.isSome)

/-- Number of occurrences of a tag among the rendered line entries. -/
def tagCount (tag : LineTag) (tags : List LineTag) : Nat :=
  tags.countP (fun t => decide (t = tag))

theorem delta_counts_go (lines : List DiffLine) :
    ∀ a d : Nat,
      List.foldl
        (fun acc line =>
          if line.old_lineno.isNone then (acc.1 + 1, acc.2)
          else if line.new_lineno.isNone then (acc.1, acc.2 + 1)
          else acc) (a, d) lines =
      (a + lines.countP (fun l => l.old_lineno.isNone),
       d + lines.countP (fun l => l.old_lineno.isSome && l.new_lineno.isNone)) := by
  induction lines with
  | nil => intro a d; simp
  | cons l rest ih =>
    intro a d
    obtain ⟨o, ol, nl⟩ := l
    cases ol <;> cases nl <;>
      simp_all [List.countP_cons] <;> omega

theorem wf_newOnly (l : DiffLine) (h : lineWF l = true) :
    l.old_lineno.isNone = (l.old_lineno.isNone && l.new_lineno.isSome) := by
  obtain ⟨o, ol, nl⟩ := l
  cases o <;> cases ol <;> cases nl <;> simp_all [lineWF]

theorem render_tags_counts (lines : List DiffLine)
    (hwf : ∀ l ∈ lines, lineWF l = true) :
    tagCount .added (render_hunk_tags .Modified lines) = countNewOnly lines ∧
    tagCount .deleted (render_hunk_tags .Modified lines) = countOldOnly lines ∧
    tagCount .unmarked (render_hunk_tags .Modified lines) = countBoth lines := by
  induction lines with
  | nil => simp [render_hunk_tags, tagCount, countNewOnly, countOldOnly, countBoth]
  | cons l rest ih =>
    have hl : lineWF l = true := hwf l (by simp)
    obtain ⟨h1, h2, h3⟩ := ih (fun x hx => hwf x (by simp [hx]))
    obtain ⟨o, ol, nl⟩ := l
    cases o <;> cases ol <;> cases nl <;>
      simp_all [lineWF, render_hunk_tags, render_line_tag, tagCount,
        countNewOnly, countOldOnly, countBoth, List.countP_cons]

/-- C8: for every textual hunk whose lines satisfy the libgit2 invariant,
with N lines present only on the old side, M lines present only on the new
side, and K lines present on both sides, `render_commit` counts exactly M
additions and N deletions (context lines are uncounted), and the rendered
unified-diff block for a Modified delta contains exactly M addition-tagged,
N deletion-tagged, and K unmarked line entries. -/
theorem c8_hunk_classification (lines : List DiffLine)
    (hwf : ∀ l ∈ lines, lineWF l = true) :
    delta_counts lines = (countNewOnly lines, countOldOnly lines) ∧
    tagCount .added (render_hunk_tags .Modified lines) = countNewOnly lines ∧
    tagCount .deleted (render_hunk_tags .Modified lines) = countOldOnly lines ∧
    tagCount .unmarked (render_hunk_tags .Modified lines) = countBoth lines := by
  obtain ⟨h1, h2, h3⟩ := render_tags_counts lines hwf
  refine ⟨?_, h1, h2, h3⟩
  unfold delta_counts
  rw [delta_counts_go]
  have hcong : lines.countP (fun l => l.old_lineno.isNone) = countNewOnly lines := by
    unfold countNewOnly
    refine List.countP_congr fun l hl => ?_
    rw [← wf_newOnly l (hwf l hl)]
  rw [hcong]
  simp [countOldOnly]

/-- Witness for C8 at a concrete hunk: one deletion, one addition and one
context line (N = 1, M = 1, K = 1). -/
theorem c8_hunk_classification_witness :
    (∀ l ∈ [DiffLine.mk .Deletion (some 1) none,
            DiffLine.mk .Addition none (some 1),
            DiffLine.mk .Context (some 2) (some 2)], lineWF l = true) ∧
    delta_counts [DiffLine.mk .Deletion (some 1) none,
                  DiffLine.mk .Addition none (some 1),
                  DiffLine.mk .Context (some 2) (some 2)] =
      (countNewOnly [DiffLine.mk .Deletion (some 1) none,
                     DiffLine.mk .Addition none (some 1),
                     DiffLine.mk .Context (some 2) (some 2)],
       countOldOnly [DiffLine.mk .Deletion (some 1) none,
                     DiffLine.mk .Addition none (some 1),
                     DiffLine.mk .Context (some 2) (some 2)]) ∧
    delta_counts [DiffLine.mk .Deletion (some 1) none,
                  DiffLine.mk .Addition none (some 1),
                  DiffLine.mk .Context (some 2) (some 2)] = (1, 1) ∧
    tagCount .added (render_hunk_tags .Modified
        [DiffLine.mk .Deletion (some 1) none,
         DiffLine.mk .Addition none (some 1),
         DiffLine.mk .Context (some 2) (some 2)]) = 1 ∧
    tagCount .deleted (render_hunk_tags .Modified
        [DiffLine.mk .Deletion (some 1) none,
         DiffLine.mk .Addition none (some 1),
         DiffLine.mk .Context (some 2) (some 2)]) = 1 ∧
    tagCount .unmarked (render_hunk_tags .Modified
        [DiffLine.mk .Deletion (some 1) none,
         DiffLine.mk .Addition none (some 1),
         DiffLine.mk .Context (some 2) (some 2)]) = 1 := by
  have h := c8_hunk_classification
    [DiffLine.mk .Deletion (some 1) none,
     DiffLine.mk .Addition none (some 1),
     DiffLine.mk .Context (some 2) (some 2)] (by decide)
  refine ⟨by decide, h.1, by decide, ?_, ?_, ?_⟩
  · rw [h.2.1]; decide
  · rw [h.2.2.1]; decide
  · rw [h.2.2.2]; decide

/-! ## Repository catalog: `src/main.rs`, `RepoInfo::open` (lines 70-170)
and `RepoInfo::index` (lines 174-207)

Commit author timestamps are `i64` seconds, modelled as `Int`; the source
narrows the minimum to `u32` with an `as u32` cast, modelled by reduction
modulo `2^32`. -/

/-- The Rust `i64 as u32` cast: the low 32 bits of the value. -/
def u32cast (t : Int) : Nat := (t % (4294967296 : Int)).toNat

/-- Embeds the revwalk fold of `RepoInfo::open` (main.rs:92-108): starting
from `(u32::MAX, i64::MIN)`, take the minimum of the `u32`-cast author
times and the maximum of the author times. -/
def first_last (times : List Int) : Nat × Int :=
  times.foldl
    (fun acc t => (Nat.min acc.1 (u32cast t), if acc.2 ≤ t then t else acc.2))
    (4294967295, -9223372036854775808)

/-- The catalog record of one repository: its `first_commit` (`u32`) and
`last_commit` (seconds of a `git2::Time`) fields (main.rs:59-67). -/
structure RepoInfo where
  first_commit : Nat
  last_commit : Int
deriving DecidableEq

/-- Embeds `RepoInfo::open` restricted to the commit-range computation
(main.rs:83-113): the repository is rejected when the folded minimum still
equals `u32::MAX` (treated as "no commits"). -/
def RepoInfo.open (times : List Int) : Option RepoInfo :=
  let fl := first_last times
  if fl.1 = 4294967295 then none
  else some ⟨fl.1, fl.2⟩

/-- The all-or-nothing scan of `RepoInfo::index` (main.rs:184-196): opening
any repository fails the whole scan. -/
def RepoInfo.openAll : List (List Int) → Option (List RepoInfo)
  | [] => some []
  | ts :: rest =>
    match RepoInfo.open ts with
    | none => none
    | some r =>
      match RepoInfo.openAll rest with
      | none => none
      | some rs => some (r :: rs)

/-- Embeds `RepoInfo::index` (main.rs:174-207): open every repository, then
sort by descending `first_commit` (`r2.first_commit.cmp(&r1.first_commit)`,
main.rs:198; the stable sort is modelled by the stable insertion sort). -/
def RepoInfo.index (repos : List (List Int)) : Option (List RepoInfo) :=
  (RepoInfo.openAll repos).map
    (List.insertionSort (fun r1 r2 => r2.first_commit ≤ r1.first_commit))

/-- C7 fails on the code: the sort key is the minimum of the timestamps
reduced modulo `2^32`, not the minimum timestamp.  For a repository whose
only commit has author time `-2` (two seconds before the epoch) and one
whose only commit has author time `100`, the oldest commit of the second
repository is more recent, so the claim puts it first; the code stores
`first_commit = 2^32 - 2` for the first repository and sorts it first. -/
theorem c7_catalog_order_counterexample :
    RepoInfo.index [[-2], [100]] =
      some [⟨4294967294, -2⟩, ⟨100, 100⟩] ∧
    (-2 : Int) < 100 := by
  constructor
  · decide
  · decide

theorem first_last_fst (times : List Int) :
    ∀ a : Nat, ∀ b : Int,
      (times.foldl
        (fun acc t => (Nat.min acc.1 (u32cast t), if acc.2 ≤ t then t else acc.2))
        (a, b)).1 =
      times.foldl (fun m t => Nat.min m (u32cast t)) a := by
  induction times with
  | nil => intro a b; rfl
  | cons t rest ih => intro a b; simp only [List.foldl_cons]; exact ih _ _

theorem u32cast_of_range {t : Int} (h0 : 0 ≤ t) (h1 : t < 4294967296) :
    u32cast t = t.toNat := by
  unfold u32cast
  rw [Int.emod_eq_of_lt h0 h1]

theorem min_fold_of_range (ts : List Int) :
    ∀ acc : Int, 0 ≤ acc → acc < 4294967296 →
      (∀ u ∈ ts, 0 ≤ u ∧ u < 4294967296) →
      ((ts.foldl (fun m t => Nat.min m (u32cast t)) acc.toNat : Nat) : Int) =
        ts.foldl min acc := by
  induction ts with
  | nil =>
    intro acc h0 _ _
    simpa using Int.toNat_of_nonneg h0
  | cons t rest ih =>
    intro acc h0 h1 hts
    obtain ⟨ht0, ht1⟩ := hts t (by simp)
    have hstep : Nat.min acc.toNat (u32cast t) = (min acc t).toNat := by
      rw [u32cast_of_range ht0 ht1]
      rcases le_total acc t with hle | hle
      · rw [min_eq_left hle]
        exact Nat.min_eq_left (by omega)
      · rw [min_eq_right hle]
        exact Nat.min_eq_right (by omega)
    simp only [List.foldl_cons]
    rw [hstep]
    exact ih (min acc t) (le_min h0 ht0) (by omega)
      (fun u hu => hts u (by simp [hu]))

/-- C7 amended: the catalog is sorted by descending `first_commit`, where
`first_commit` is the minimum over all reachable commits of the author
timestamp reduced modulo `2^32` (the `as u32` cast); when every reachable
author timestamp lies in `[0, 2^32)` this coincides with the minimum
author timestamp, so the claimed ordering holds for such repositories. -/
theorem c7_catalog_order_amended (repos : List (List Int)) (idx : List RepoInfo)
    (h : RepoInfo.index repos = some idx) (t0 : Int) (ts : List Int)
    (hrange : ∀ u ∈ t0 :: ts, 0 ≤ u ∧ u < 4294967296) :
    idx.Pairwise (fun r1 r2 => r2.first_commit ≤ r1.first_commit) ∧
    ((first_last (t0 :: ts)).1 : Int) = ts.foldl min t0 := by
  constructor
  · unfold RepoInfo.index at h
    cases hall : RepoInfo.openAll repos with
    | none => rw [hall] at h; exact Option.noConfusion h
    | some rs =>
      rw [hall] at h
      have hidx : idx = List.insertionSort
          (fun r1 r2 => r2.first_commit ≤ r1.first_commit) rs := by
        have := Option.some.inj h
        exact this.symm
      haveI : IsTotal RepoInfo (fun r1 r2 => r2.first_commit ≤ r1.first_commit) :=
        ⟨fun a b => Nat.le_total b.first_commit a.first_commit⟩
      haveI : IsTrans RepoInfo (fun r1 r2 => r2.first_commit ≤ r1.first_commit) :=
        ⟨fun _ _ _ hab hbc => Nat.le_trans hbc hab⟩
      rw [hidx]
      exact List.sorted_insertionSort _ rs
  · unfold first_last
    rw [first_last_fst]
    obtain ⟨h00, h01⟩ := hrange t0 (by simp)
    have hstart : Nat.min 4294967295 (u32cast t0) = t0.toNat := by
      rw [u32cast_of_range h00 h01]
      exact Nat.min_eq_right (by omega)
    simp only [List.foldl_cons]
    rw [hstart]
    exact min_fold_of_range ts t0 h00 h01 (fun u hu => hrange u (by simp [hu]))

/-- Witness for C7-amended at a concrete input: two repositories with
single commits at times 5 and 7, and the in-range walk `[9, 4]`. -/
theorem c7_catalog_order_amended_witness :
    RepoInfo.index [[5], [7]] = some [⟨7, 7⟩, ⟨5, 5⟩] ∧
    (∀ u ∈ [(9 : Int), 4], 0 ≤ u ∧ u < 4294967296) ∧
    List.Pairwise (fun r1 r2 => r2.first_commit ≤ r1.first_commit)
      [(⟨7, 7⟩ : RepoInfo), ⟨5, 5⟩] ∧
    ((first_last [9, 4]).1 : Int) = [(4 : Int)].foldl min 9 := by
  have h := c7_catalog_order_amended [[5], [7]] [⟨7, 7⟩, ⟨5, 5⟩]
    (by decide) 9 [4] (by decide)
  exact ⟨by decide, by decide, h.1, h.2⟩

/-! ## Rendered text fragments: `src/main.rs`, `render_log` (734-765),
`render_commit` (953-958, 998-1007) and `render_header` (1382-1386)

ASCII string literals are turned into byte lists; the interpolated text
parameters are byte lists.  Interpolations written through `Escaped(...)`
in the source appear here through `fmt_escaped_html_scalar`; plain
interpolations appear verbatim. -/

/-- Bytes of an ASCII string literal. -/
def strBytes (s : String) : List Nat := s.data.map Char.toNat

/-- Embeds the log entry message of `render_log` (main.rs:761-763):
`writeln!("<p>")`, `writeln!("{msg}")`, `writeln!("</p>")` — the commit
summary is interpolated without the escaper. -/
def render_log_entry_message (msg : List Nat) : List Nat :=
  strBytes "<p>\n" ++ msg ++ strBytes "\n</p>\n"

/-- Embeds one commit-message paragraph of `render_commit`
(main.rs:956-958): `writeln!("<p>\n{p}\n</p>")` with the trimmed paragraph
interpolated without the escaper. -/
def render_commit_message_paragraph (p : List Nat) : List Nat :=
  strBytes "<p>\n" ++ p ++ strBytes "\n</p>\n"

/-- Embeds the delta-table path cell of `render_commit` (main.rs:1004):
`"<td><a href=\"#d{delta_id}\">{old_path}</a></td>"` with the path
interpolated without the escaper. -/
def render_delta_path_cell (idBytes old_path : List Nat) : List Nat :=
  strBytes "<td><a href=\"#d" ++ idBytes ++ strBytes "\">" ++ old_path ++
    strBytes "</a></td>\n"

/-- Embeds the commit page title of `render_header` (main.rs:1382-1386):
`"<title>{repo}: {summary}</title>"` where both interpolations go through
`Escaped(...)`. -/
def render_commit_page_title (repo summary : List Nat) : List Nat :=
  strBytes "<title>" ++ fmt_escaped_html_scalar repo ++ strBytes ": " ++
    fmt_escaped_html_scalar summary ++ strBytes "</title>\n"

/-- C6 fails on the code: the commit summary `a<b` is written into the log
page body verbatim — the output is not the escaped form, and contains the
reserved byte 60 (`<`) coming from the summary. -/
theorem c6_unescaped_counterexample :
    render_log_entry_message (strBytes "a<b") = strBytes "<p>\na<b\n</p>\n" ∧
    fmt_escaped_html_scalar (strBytes "a<b") = strBytes "a&lt;b" ∧
    render_log_entry_message (strBytes "a<b") ≠
      strBytes "<p>\n" ++ fmt_escaped_html_scalar (strBytes "a<b") ++
        strBytes "\n</p>\n" := by
  have hesc : fmt_escaped_html_scalar (strBytes "a<b") = strBytes "a&lt;b" := by
    rw [scalar_eq_escBytes]
    decide
  refine ⟨by decide, hesc, ?_⟩
  rw [hesc]
  decide

/-- C6 amended: page titles (and the other `Escaped(...)` interpolations)
pass through the HTML escaper, but the commit summary on the log page, the
commit-message paragraphs on the commit page, and the file paths in the
delta table are interpolated verbatim, without the escaper. -/
theorem c6_escaping_amended (msg p idBytes path repo summary : List Nat) :
    render_log_entry_message msg = strBytes "<p>\n" ++ msg ++ strBytes "\n</p>\n" ∧
    msg <:+: render_log_entry_message msg ∧
    render_commit_message_paragraph p =
      strBytes "<p>\n" ++ p ++ strBytes "\n</p>\n" ∧
    path <:+: render_delta_path_cell idBytes path ∧
    render_commit_page_title repo summary =
      strBytes "<title>" ++ fmt_escaped_html_scalar repo ++ strBytes ": " ++
        fmt_escaped_html_scalar summary ++ strBytes "</title>\n" := by
  refine ⟨rfl, ⟨strBytes "<p>\n", strBytes "\n</p>\n", by simp [render_log_entry_message]⟩,
    rfl, ⟨strBytes "<td><a href=\"#d" ++ idBytes ++ strBytes "\">",
      strBytes "</a></td>\n", by simp [render_delta_path_cell]⟩, rfl⟩

/-! ## POSIX file mode rendering: `src/main.rs`, `Display for Mode`
(lines 1226-1321)

The `i32` file mode is modelled by its bit pattern as a `Nat`; every mask
in the source is positive, so `&` depends only on the corresponding bits. -/

namespace Mode

/-- The file-type character (main.rs:1251-1260): `m & S_IFMT` matched
against the seven file types, `?` otherwise. -/
def fileType (m : Nat) : Char :=
  if m &&& 0o170000 = 0o100000 then '-'
  else if m &&& 0o170000 = 0o040000 then 'd'
  else if m &&& 0o170000 = 0o020000 then 'c'
  else if m &&& 0o170000 = 0o060000 then 'b'
  else if m &&& 0o170000 = 0o010000 then 'p'
  else if m &&& 0o170000 = 0o120000 then 'l'
  else if m &&& 0o170000 = 0o140000 then 's'
  else '?'

/-- Owner read (main.rs:1262-1266). -/
def usrR (m : Nat) : Char := if m &&& (0o4 <<< 6) ≠ 0 then 'r' else '-'

/-- Owner write (main.rs:1268-1272). -/
def usrW (m : Nat) : Char := if m &&& (0o2 <<< 6) ≠ 0 then 'w' else '-'

/-- Owner execute combined with setuid (main.rs:1274-1279). -/
def usrX (m : Nat) : Char :=
  if m &&& 0o4000 ≠ 0 then (if m &&& (0o1 <<< 6) ≠ 0 then 's' else 'S')
  else (if m &&& (0o1 <<< 6) ≠ 0 then 'x' else '-')

/-- Group read (main.rs:1281-1285). -/
def grpR (m : Nat) : Char := if m &&& (0o4 <<< 3) ≠ 0 then 'r' else '-'

/-- Group write (main.rs:1287-1291). -/
def grpW (m : Nat) : Char := if m &&& (0o2 <<< 3) ≠ 0 then 'w' else '-'

/-- Group execute combined with setgid (main.rs:1293-1298). -/
def grpX (m : Nat) : Char :=
  if m &&& 0o2000 ≠ 0 then (if m &&& (0o1 <<< 3) ≠ 0 then 's' else 'S')
  else (if m &&& (0o1 <<< 3) ≠ 0 then 'x' else '-')

/-- Others read (main.rs:1300-1304). -/
def othR (m : Nat) : Char := if m &&& 0o4 ≠ 0 then 'r' else '-'

/-- Others write (main.rs:1306-1310). -/
def othW (m : Nat) : Char := if m &&& 0o2 ≠ 0 then 'w' else '-'

/-- Others execute combined with the sticky bit (main.rs:1312-1317). -/
def othX (m : Nat) : Char :=
  if m &&& 0o1000 ≠ 0 then (if m &&& 0o1 ≠ 0 then 't' else 'T')
  else (if m &&& 0o1 ≠ 0 then 'x' else '-')

/-- Embeds `Display for Mode` (main.rs:1226-1321): the ten characters
written, in order. -/
def render (m : Nat) : List Char :=
  [fileType m, usrR m, usrW m, usrX m, grpR m, grpW m, grpX m,
   othR m, othW m, othX m]

end Mode

/-- C10: for every file-mode bit pattern, the rendered mode string is
exactly 10 characters: one file-type character drawn from
`{-, d, c, b, p, l, s, ?}` followed by nine permission characters, each
from the set its position allows (read `r` or `-`; write `w` or `-`; owner
and group execute `s`, `S`, `x` or `-` via the setuid and setgid bits;
others execute `t`, `T`, `x` or `-` via the sticky bit). -/
theorem c10_mode_string_shape (m : Nat) :
    (Mode.render m).length = 10 ∧
    Mode.fileType m ∈ ['-', 'd', 'c', 'b', 'p', 'l', 's', '?'] ∧
    Mode.usrR m ∈ ['r', '-'] ∧ Mode.usrW m ∈ ['w', '-'] ∧
    Mode.usrX m ∈ ['s', 'S', 'x', '-'] ∧
    Mode.grpR m ∈ ['r', '-'] ∧ Mode.grpW m ∈ ['w', '-'] ∧
    Mode.grpX m ∈ ['s', 'S', 'x', '-'] ∧
    Mode.othR m ∈ ['r', '-'] ∧ Mode.othW m ∈ ['w', '-'] ∧
    Mode.othX m ∈ ['t', 'T', 'x', '-'] := by
  refine ⟨rfl, ?_, ?_, ?_, ?_, ?_, ?_, ?_, ?_, ?_, ?_⟩ <;>
    first
    | (unfold Mode.fileType; split_ifs <;> simp)
    | (unfold Mode.usrR; split_ifs <;> simp)
    | (unfold Mode.usrW; split_ifs <;> simp)
    | (unfold Mode.usrX; split_ifs <;> simp)
    | (unfold Mode.grpR; split_ifs <;> simp)
    | (unfold Mode.grpW; split_ifs <;> simp)
    | (unfold Mode.grpX; split_ifs <;> simp)
    | (unfold Mode.othR; split_ifs <;> simp)
    | (unfold Mode.othW; split_ifs <;> simp)
    | (unfold Mode.othX; split_ifs <;> simp)
